import Mathlib

/-!
Shallow embedding of the root-finding core of `RootFinding_part1.ipynb`.

The source defines a single algorithmic function:

```
def bisection(F, a, b, n):
    for i in range(n):
        h = (a + b) / 2
        if F(a)*F(h) < 0:
            b=h
        else:
            a=h
    return h
```

The loop state is the pair of endpoints `(a, b)` together with the loop-local
variable `h`, which is unbound until the body has run at least once (modelled
with `Option`).  The arithmetic is idealised as exact arithmetic over a linear
ordered field, so the same definitions can be run on `ℚ` and reasoned about
on `ℝ`.  The iteration count is an integer, as in Python, where `range n` is
empty for `n ≤ 0`.
-/

namespace RootFinding

variable {α : Type*} [LinearOrderedField α]

/-- Midpoint `h = (a + b) / 2` of the current interval (source line
`h = (a + b) / 2`). -/
def mid (p : α × α) : α := (p.1 + p.2) / 2

/-- One iteration of the loop body acting on the endpoint pair: compute the
midpoint `h` and either set `b = h` (when `F(a)*F(h) < 0`) or set `a = h`
(otherwise). -/
def bisectStep (F : α → α) (p : α × α) : α × α :=
  if F p.1 * F (mid p) < 0 then (p.1, mid p) else (mid p, p.2)

/-- The endpoint pair after `n` iterations of the loop body. -/
def bisectIter (F : α → α) : ℕ → α × α → α × α
  | 0, p => p
  | n + 1, p => bisectStep F (bisectIter F n p)

/-- One iteration of the loop acting on the full state, which also records the
loop-local variable `h` (the midpoint computed in that iteration). -/
def loopStep (F : α → α) (s : (α × α) × Option α) : (α × α) × Option α :=
  (bisectStep F s.1, some (mid s.1))

/-- The full loop state after `n` iterations. -/
def loopIter (F : α → α) : ℕ → (α × α) × Option α → (α × α) × Option α
  | 0, s => s
  | n + 1, s => loopStep F (loopIter F n s)

/-- The function `bisection(F, a, b, n)` of the source: run the loop `n` times
starting from `((a, b), h unbound)` and return `h`.  The result is `none`
exactly when `h` is still unbound at the `return` statement (in Python an
`UnboundLocalError`), i.e. when the loop body never ran. -/
def bisection (F : α → α) (a b : α) (n : ℤ) : Option α :=
  (loopIter F n.toNat ((a, b), none)).2

/-- Instrumented variant of the loop that also records the list of arguments
at which the caller-supplied `F` is evaluated: each iteration evaluates
`F(a)` and `F(h)`, in that order, in the test `F(a)*F(h) < 0`. -/
def bisectTrace (F : α → α) : ℕ → α × α → (α × α) × List α
  | 0, p => (p, [])
  | n + 1, p =>
      (bisectStep F (bisectTrace F n p).1,
        (bisectTrace F n p).2 ++
          [(bisectTrace F n p).1.1, mid (bisectTrace F n p).1])

/-! ### Basic lemmas about the embedding -/

lemma bisectStep_of_lt {F : α → α} {p : α × α} (h : F p.1 * F (mid p) < 0) :
    bisectStep F p = (p.1, mid p) := if_pos h

lemma bisectStep_of_not_lt {F : α → α} {p : α × α}
    (h : ¬ F p.1 * F (mid p) < 0) :
    bisectStep F p = (mid p, p.2) := if_neg h

lemma bisectIter_succ (F : α → α) (n : ℕ) (p : α × α) :
    bisectIter F (n + 1) p = bisectStep F (bisectIter F n p) := rfl

lemma bisectIter_succ_apply (F : α → α) (n : ℕ) (p : α × α) :
    bisectIter F (n + 1) p = bisectIter F n (bisectStep F p) := by
  induction n with
  | zero => rfl
  | succ m ih => rw [bisectIter_succ, ih, bisectIter_succ]

lemma loopIter_fst (F : α → α) (n : ℕ) (p : α × α) (o : Option α) :
    (loopIter F n (p, o)).1 = bisectIter F n p := by
  induction n with
  | zero => rfl
  | succ m ih =>
      show (loopStep F (loopIter F m (p, o))).1 = _
      rw [loopStep, ih, bisectIter_succ]

lemma loopIter_snd_succ (F : α → α) (n : ℕ) (p : α × α) (o : Option α) :
    (loopIter F (n + 1) (p, o)).2 = some (mid (bisectIter F n p)) := by
  show (loopStep F (loopIter F n (p, o))).2 = _
  rw [loopStep, loopIter_fst]

lemma bisection_natCast_succ (F : α → α) (a b : α) (n : ℕ) :
    bisection F a b ((n : ℤ) + 1) = some (mid (bisectIter F n (a, b))) := by
  have h : ((n : ℤ) + 1).toNat = n + 1 := by omega
  rw [bisection, h, loopIter_snd_succ]

/-- Signed width of the endpoint pair after `n` iterations: each iteration
halves it exactly. -/
lemma bisectIter_width (F : α → α) (n : ℕ) (p : α × α) :
    (bisectIter F n p).2 - (bisectIter F n p).1 = (p.2 - p.1) / 2 ^ n := by
  induction n with
  | zero => simp [bisectIter]
  | succ m ih =>
      have key₁ : ∀ x y : α, (x + y) / 2 - x = (y - x) / 2 := by
        intro x y; ring
      have key₂ : ∀ x y : α, y - (x + y) / 2 = (y - x) / 2 := by
        intro x y; ring
      rw [bisectIter_succ, bisectStep]
      split
      · show mid (bisectIter F m p) - (bisectIter F m p).1 = _
        rw [mid, key₁, ih, pow_succ, div_div]
      · show (bisectIter F m p).2 - mid (bisectIter F m p) = _
        rw [mid, key₂, ih, pow_succ, div_div]

lemma bisection_coe_of_pos (F : α → α) (a b : α) {n : ℕ} (hn : 1 ≤ n) :
    bisection F a b (n : ℤ) = some (mid (bisectIter F (n - 1) (a, b))) := by
  obtain ⟨m, rfl⟩ : ∃ m, n = m + 1 := ⟨n - 1, by omega⟩
  have h : ((m + 1 : ℕ) : ℤ) = (m : ℤ) + 1 := by push_cast; ring
  rw [h, bisection_natCast_succ]
  norm_num

/-- When the endpoint values have strictly opposite signs and the midpoint is
not an exact zero of `F`, one loop iteration keeps strictly opposite signs at
the endpoints. -/
lemma bisectStep_sign {F : α → α} {p : α × α} (hs : F p.1 * F p.2 < 0)
    (hz : F (mid p) ≠ 0) :
    F (bisectStep F p).1 * F (bisectStep F p).2 < 0 := by
  by_cases h : F p.1 * F (mid p) < 0
  · rw [bisectStep_of_lt h]
    exact h
  · rw [bisectStep_of_not_lt h]
    have h1 : F p.1 ≠ 0 := by
      intro h0
      rw [h0, zero_mul] at hs
      exact lt_irrefl 0 hs
    have h2 : 0 < F p.1 * F (mid p) :=
      lt_of_le_of_ne (not_lt.mp h) (Ne.symm (mul_ne_zero h1 hz))
    show F (mid p) * F p.2 < 0
    nlinarith [sq_nonneg (F p.1)]

/-- Along a run started from a sign-changing bracket, as long as no examined
midpoint is an exact zero of `F`, the endpoint values keep strictly opposite
signs. -/
lemma bisectIter_sign {F : α → α} {a b : α} (hs : F a * F b < 0) (n : ℕ)
    (hz : ∀ j < n, F (mid (bisectIter F j (a, b))) ≠ 0) :
    F (bisectIter F n (a, b)).1 * F (bisectIter F n (a, b)).2 < 0 := by
  induction n with
  | zero => exact hs
  | succ m ih =>
      rw [bisectIter_succ]
      exact bisectStep_sign (ih fun j hj => hz j (by omega)) (hz m (by omega))

/-- Both endpoints of the active interval stay inside the closed interval
spanned by the starting endpoints. -/
lemma bisectIter_mem (F : α → α) (a b : α) (n : ℕ) :
    min a b ≤ (bisectIter F n (a, b)).1 ∧ (bisectIter F n (a, b)).1 ≤ max a b ∧
      min a b ≤ (bisectIter F n (a, b)).2 ∧
        (bisectIter F n (a, b)).2 ≤ max a b := by
  induction n with
  | zero =>
      exact ⟨min_le_left a b, le_max_left a b, min_le_right a b, le_max_right a b⟩
  | succ m ih =>
      obtain ⟨h1, h2, h3, h4⟩ := ih
      have hm1 : min a b ≤ mid (bisectIter F m (a, b)) := by
        rw [mid]; linarith
      have hm2 : mid (bisectIter F m (a, b)) ≤ max a b := by
        rw [mid]; linarith
      rw [bisectIter_succ, bisectStep]
      split
      · exact ⟨h1, h2, hm1, hm2⟩
      · exact ⟨hm1, hm2, h3, h4⟩

/-- With a sign-changing bracket and no exact zero at any examined midpoint,
running the loop from `(b, a)` tracks exactly the run from `(a, b)` with the
two endpoints exchanged. -/
lemma bisectIter_swap {F : α → α} {a b : α} (hs : F a * F b < 0) (n : ℕ)
    (hz : ∀ j < n, F (mid (bisectIter F j (a, b))) ≠ 0) :
    bisectIter F n (b, a) =
      ((bisectIter F n (a, b)).2, (bisectIter F n (a, b)).1) := by
  induction n with
  | zero => rfl
  | succ m ih =>
      have hsm := bisectIter_sign hs m fun j hj => hz j (by omega)
      have hzm := hz m (by omega)
      have ihm := ih fun j hj => hz j (by omega)
      rw [bisectIter_succ, bisectIter_succ, ihm]
      set q := bisectIter F m (a, b) with hq
      have hmid : mid ((q.2, q.1) : α × α) = mid q := by
        rw [mid, mid]; ring_nf
      have hq1 : F q.1 ≠ 0 := by
        intro h0
        rw [h0, zero_mul] at hsm
        exact lt_irrefl 0 hsm
      by_cases h : F q.1 * F (mid q) < 0
      · have hpos : 0 < F q.2 * F (mid q) := by nlinarith [sq_nonneg (F q.1)]
        have hcond : ¬ F ((q.2, q.1) : α × α).1 *
            F (mid ((q.2, q.1) : α × α)) < 0 := by
          rw [hmid]
          exact not_lt.mpr hpos.le
        rw [bisectStep_of_lt h, bisectStep_of_not_lt hcond]
        rw [hmid]
      · have h2 : 0 < F q.1 * F (mid q) :=
          lt_of_le_of_ne (not_lt.mp h) (Ne.symm (mul_ne_zero hq1 hzm))
        have hneg : F q.2 * F (mid q) < 0 := by nlinarith [sq_nonneg (F q.1)]
        have hcond : F ((q.2, q.1) : α × α).1 *
            F (mid ((q.2, q.1) : α × α)) < 0 := by
          rw [hmid]
          exact hneg
        rw [bisectStep_of_not_lt h, bisectStep_of_lt hcond]
        rw [hmid]

/-- A degenerate bracket `a = b` is a fixed point of the loop body. -/
lemma bisectIter_const (F : α → α) (a : α) (n : ℕ) :
    bisectIter F n (a, a) = (a, a) := by
  induction n with
  | zero => rfl
  | succ m ih =>
      have hm : mid ((a, a) : α × α) = a := by
        rw [mid]; ring
      rw [bisectIter_succ, ih, bisectStep, hm]
      split <;> rfl

/-- Intermediate value theorem, in the form used by the convergence proof: a
continuous function with strictly opposite signs at the ends of a closed
interval has a zero inside it. -/
lemma exists_root_of_mul_neg {F : ℝ → ℝ} {x y : ℝ} (hxy : x ≤ y)
    (hc : ContinuousOn F (Set.Icc x y)) (hs : F x * F y < 0) :
    ∃ z ∈ Set.Icc x y, F z = 0 := by
  rcases mul_neg_iff.mp hs with ⟨hx, hy⟩ | ⟨hx, hy⟩
  · obtain ⟨z, hz, hz0⟩ := intermediate_value_Icc' hxy hc ⟨hy.le, hx.le⟩
    exact ⟨z, hz, hz0⟩
  · obtain ⟨z, hz, hz0⟩ := intermediate_value_Icc hxy hc ⟨hx.le, hy.le⟩
    exact ⟨z, hz, hz0⟩

lemma bisectTrace_fst (F : α → α) (n : ℕ) (p : α × α) :
    (bisectTrace F n p).1 = bisectIter F n p := by
  induction n with
  | zero => rfl
  | succ m ih =>
      show bisectStep F (bisectTrace F m p).1 = _
      rw [ih, bisectIter_succ]

lemma bisectTrace_snd (F : α → α) (n : ℕ) (p : α × α) :
    (bisectTrace F n p).2 =
      (List.range n).flatMap fun k =>
        [(bisectIter F k p).1, mid (bisectIter F k p)] := by
  induction n with
  | zero => rfl
  | succ m ih =>
      show (bisectTrace F m p).2 ++
          [(bisectTrace F m p).1.1, mid (bisectTrace F m p).1] = _
      rw [ih, bisectTrace_fst, List.range_succ, List.flatMap_append]
      simp

lemma bisectTrace_length (F : α → α) (n : ℕ) (p : α × α) :
    (bisectTrace F n p).2.length = 2 * n := by
  induction n with
  | zero => rfl
  | succ m ih =>
      show ((bisectTrace F m p).2 ++
          [(bisectTrace F m p).1.1, mid (bisectTrace F m p).1]).length = _
      rw [List.length_append, ih, List.length_cons, List.length_cons,
        List.length_nil]
      omega

/-- Evaluation helper: a call whose iteration count is the successor of `m`
returns the midpoint of the interval after `m` iterations. -/
lemma bisection_succ_eval (F : α → α) (a b : α) (m : ℕ) (n : ℤ)
    (h : n.toNat = m + 1) :
    bisection F a b n = some (mid (bisectIter F m (a, b))) := by
  show (loopIter F n.toNat ((a, b), none)).2 = _
  rw [h, loopIter_snd_succ]

lemma bisectIter_one (F : α → α) (p : α × α) :
    bisectIter F 1 p = bisectStep F p := rfl

lemma bisectIter_three (F : α → α) (p : α × α) :
    bisectIter F 3 p = bisectStep F (bisectStep F (bisectStep F p)) := rfl

/-! ### Claim theorems -/

/-- C3: for every `F`, `a`, `b`, `n` and every iteration count `k < n`, after
`k` iterations of the bisection loop the (signed) width of the active interval
equals exactly `(b - a) / 2 ^ k`: each iteration halves the interval width
exactly, in exact arithmetic. -/
theorem bisection_width_halves (F : α → α) (a b : α) (n k : ℕ) (hk : k < n) :
    (bisectIter F k (a, b)).2 - (bisectIter F k (a, b)).1 = (b - a) / 2 ^ k :=
  bisectIter_width F k (a, b)

theorem bisection_width_halves_witness :
    (bisectIter (fun x : ℚ => x * x - 3) 2 (1, 2)).2 -
      (bisectIter (fun x : ℚ => x * x - 3) 2 (1, 2)).1 = (2 - 1) / 2 ^ 2 :=
  bisection_width_halves (fun x : ℚ => x * x - 3) 1 2 3 2 (by norm_num)

/-- C4: for every `F`, `a`, `b` with `F a` and `F b` of strictly opposite
signs, the bisection loop preserves the bracketing invariant: as long as no
midpoint `h` with `F h = 0` is hit, the two endpoints of the active interval
keep function values of strictly opposite signs. -/
theorem bisection_bracket_invariant (F : α → α) (a b : α)
    (hs : F a * F b < 0) (n : ℕ)
    (hz : ∀ j < n, F (mid (bisectIter F j (a, b))) ≠ 0) :
    F (bisectIter F n (a, b)).1 * F (bisectIter F n (a, b)).2 < 0 :=
  bisectIter_sign hs n hz

theorem bisection_bracket_invariant_witness :
    (fun x : ℚ => x) (bisectIter (fun x : ℚ => x) 1 (-1, 2)).1 *
      (fun x : ℚ => x) (bisectIter (fun x : ℚ => x) 1 (-1, 2)).2 < 0 := by
  apply bisection_bracket_invariant (fun x : ℚ => x) (-1) 2 (by norm_num) 1
  intro j hj
  have hj0 : j = 0 := by omega
  subst hj0
  show (fun x : ℚ => x) (mid ((-1 : ℚ), 2)) ≠ 0
  norm_num [mid]

/-- C5: at any iteration where the midpoint `h` satisfies `F h = 0`, the loop
takes the else branch and sets `a = h` (the same behaviour as a non-negative
product `F a * F h`), continuing to bisect for the remaining iterations
rather than returning `h` immediately. -/
theorem bisection_exact_zero_continues (F : α → α) (p : α × α)
    (h0 : F (mid p) = 0) :
    bisectStep F p = (mid p, p.2) ∧
      ∀ m : ℕ, bisectIter F (m + 1) p = bisectIter F m (mid p, p.2) := by
  have hstep : bisectStep F p = (mid p, p.2) := by
    apply bisectStep_of_not_lt
    rw [h0, mul_zero]
    exact lt_irrefl 0
  refine ⟨hstep, fun m => ?_⟩
  rw [bisectIter_succ_apply, hstep]

theorem bisection_exact_zero_continues_witness :
    bisectStep (fun x : ℚ => x) (-1, 1) = (mid ((-1 : ℚ), 1), 1) ∧
      bisectIter (fun x : ℚ => x) 1 (-1, 1) =
        bisectIter (fun x : ℚ => x) 0 (mid ((-1 : ℚ), 1), 1) := by
  have h := bisection_exact_zero_continues (fun x : ℚ => x) (-1, 1)
    (by norm_num [mid])
  exact ⟨h.1, h.2 0⟩

/-- C8: with `n ≤ 0` the loop body never runs, the loop-local variable `h` is
still unbound at the `return` statement and the call fails to return a value
(in Python an `UnboundLocalError`, modelled as `none`); with `n ≥ 1` the
function always returns a value. -/
theorem bisection_unbound_or_returns (F : α → α) (a b : α) (n : ℤ) :
    (n ≤ 0 → bisection F a b n = none) ∧
      (1 ≤ n → ∃ e, bisection F a b n = some e) := by
  constructor
  · intro hn
    have h0 : n.toNat = 0 := by omega
    show (loopIter F n.toNat ((a, b), none)).2 = none
    rw [h0]
    rfl
  · intro hn
    obtain ⟨m, hm⟩ : ∃ m : ℕ, n.toNat = m + 1 := ⟨n.toNat - 1, by omega⟩
    refine ⟨mid (bisectIter F m (a, b)), ?_⟩
    show (loopIter F n.toNat ((a, b), none)).2 = _
    rw [hm, loopIter_snd_succ]

theorem bisection_unbound_or_returns_witness :
    bisection (fun x : ℚ => x) 0 1 (-3) = none ∧
      ∃ e, bisection (fun x : ℚ => x) 0 1 2 = some e :=
  ⟨(bisection_unbound_or_returns (fun x : ℚ => x) 0 1 (-3)).1 (by decide),
    (bisection_unbound_or_returns (fun x : ℚ => x) 0 1 2).2 (by decide)⟩

/-- C9: for every `F`, every pair of distinct endpoints `a`, `b`, and every
`n ≥ 1`, the returned estimate lies strictly between `min a b` and `max a b`
in exact arithmetic, whether or not the bracketing precondition holds. -/
theorem bisection_estimate_inside (F : α → α) (a b : α) (hab : a ≠ b) (n : ℕ)
    (hn : 1 ≤ n) :
    ∀ e, bisection F a b (n : ℤ) = some e → min a b < e ∧ e < max a b := by
  obtain ⟨m, rfl⟩ : ∃ m, n = m + 1 := ⟨n - 1, by omega⟩
  intro e he
  rw [bisection_coe_of_pos F a b hn] at he
  have he' : e = mid (bisectIter F m (a, b)) := (Option.some.inj he).symm
  have hw := bisectIter_width F m (a, b)
  obtain ⟨h1, h2, h3, h4⟩ := bisectIter_mem F a b m
  have hne : (bisectIter F m (a, b)).1 ≠ (bisectIter F m (a, b)).2 := by
    intro hq
    have hz : (b - a) / 2 ^ m = 0 := by
      rw [← hw, hq, sub_self]
    rcases div_eq_zero_iff.mp hz with hba | h2m
    · exact hab (by linarith [sub_eq_zero.mp hba])
    · exact pow_ne_zero m (two_ne_zero) h2m
  have hmid : mid (bisectIter F m (a, b)) =
      ((bisectIter F m (a, b)).1 + (bisectIter F m (a, b)).2) / 2 := rfl
  rw [he', hmid]
  rcases lt_or_gt_of_ne hne with h | h
  · constructor <;> linarith
  · constructor <;> linarith

theorem bisection_estimate_inside_witness :
    min (0 : ℚ) 1 < 3 / 4 ∧ (3 / 4 : ℚ) < max 0 1 := by
  apply bisection_estimate_inside (fun _ : ℚ => 1) 0 1 (by norm_num) 2
    (by norm_num) (3 / 4)
  have h1 : bisectStep (fun _ : ℚ => 1) (0, 1) = (1 / 2, 1) := by
    have hm : mid ((0 : ℚ), 1) = 1 / 2 := by rw [mid]; norm_num
    rw [bisectStep_of_not_lt (by norm_num), hm]
  rw [bisection_succ_eval (fun _ : ℚ => 1) 0 1 1 ((2 : ℕ) : ℤ) (by omega),
    bisectIter_one, h1]
  rw [show mid ((1 / 2 : ℚ), 1) = 3 / 4 from by rw [mid]; norm_num]

/-- C10: for a degenerate bracket `a = b`, every midpoint equals `a`, the
interval never changes, and for every `n ≥ 1` the call returns exactly `a`. -/
theorem bisection_degenerate_bracket (F : α → α) (a : α) (n : ℕ)
    (hn : 1 ≤ n) : bisection F a a (n : ℤ) = some a := by
  rw [bisection_coe_of_pos F a a hn, bisectIter_const]
  have hm : mid ((a, a) : α × α) = a := by rw [mid]; ring
  rw [hm]

theorem bisection_degenerate_bracket_witness :
    bisection (fun x : ℚ => x * x) 5 5 3 = some 5 :=
  bisection_degenerate_bracket (fun x : ℚ => x * x) 5 3 (by norm_num)

/-- C6: a call with `n ≥ 1` evaluates the caller-supplied `F` exactly `2 n`
times, two per iteration — at the current left endpoint `a` (recomputed every
iteration rather than cached) and at the current midpoint `h` — and the
instrumented loop tracks the plain one. -/
theorem bisection_eval_count (F : α → α) (a b : α) (n : ℕ) (hn : 1 ≤ n) :
    (bisectTrace F n (a, b)).2.length = 2 * n ∧
      (bisectTrace F n (a, b)).2 =
        ((List.range n).flatMap fun k =>
          [(bisectIter F k (a, b)).1, mid (bisectIter F k (a, b))]) ∧
      (bisectTrace F n (a, b)).1 = bisectIter F n (a, b) :=
  ⟨bisectTrace_length F n (a, b), bisectTrace_snd F n (a, b),
    bisectTrace_fst F n (a, b)⟩

theorem bisection_eval_count_witness :
    (bisectTrace (fun x : ℚ => x) 1 (0, 1)).2.length = 2 * 1 ∧
      (bisectTrace (fun x : ℚ => x) 1 (0, 1)).2 =
        ((List.range 1).flatMap fun k =>
          [(bisectIter (fun x : ℚ => x) k (0, 1)).1,
            mid (bisectIter (fun x : ℚ => x) k (0, 1))]) ∧
      (bisectTrace (fun x : ℚ => x) 1 (0, 1)).1 =
        bisectIter (fun x : ℚ => x) 1 (0, 1) :=
  bisection_eval_count (fun x : ℚ => x) 0 1 1 le_rfl

/-- C2 counterexample: with `F x = x² − 3` on `(1, 2)` and `n = 1` the call
returns `3/2`, while the midpoint of the interval held after the one halving,
namely `(3/2, 2)`, is `7/4`. -/
theorem bisection_returns_last_midpoint_counterexample :
    bisection (fun x : ℚ => x * x - 3) 1 2 1 = some (3 / 2) ∧
      mid (bisectIter (fun x : ℚ => x * x - 3) 1 (1, 2)) = 7 / 4 ∧
      (3 / 2 : ℚ) ≠ 7 / 4 := by
  have hm : mid ((1 : ℚ), 2) = 3 / 2 := by rw [mid]; norm_num
  have h1 : bisectStep (fun x : ℚ => x * x - 3) (1, 2) = (3 / 2, 2) := by
    rw [bisectStep_of_not_lt (by rw [hm]; norm_num), hm]
  refine ⟨?_, ?_, by norm_num⟩
  · rw [bisection_succ_eval (fun x : ℚ => x * x - 3) 1 2 0 1 (by omega),
      show bisectIter (fun x : ℚ => x * x - 3) 0 ((1 : ℚ), 2) = ((1 : ℚ), 2)
        from rfl, hm]
  · rw [bisectIter_one, h1, mid]
    norm_num

/-- C2 corrected: for `n ≥ 1` the returned value is the midpoint of the
interval as it stood at the start of the final iteration, i.e. after `n − 1`
halvings; it is an endpoint of the final interval, not in general the final
interval's midpoint. -/
theorem bisection_returns_last_midpoint (F : α → α) (a b : α) (n : ℕ)
    (hn : 1 ≤ n) :
    bisection F a b (n : ℤ) = some (mid (bisectIter F (n - 1) (a, b))) ∧
      (bisectIter F n (a, b) =
          ((bisectIter F (n - 1) (a, b)).1, mid (bisectIter F (n - 1) (a, b))) ∨
        bisectIter F n (a, b) =
          (mid (bisectIter F (n - 1) (a, b)),
            (bisectIter F (n - 1) (a, b)).2)) := by
  obtain ⟨m, rfl⟩ : ∃ m, n = m + 1 := ⟨n - 1, by omega⟩
  refine ⟨bisection_coe_of_pos F a b hn, ?_⟩
  rw [bisectIter_succ, bisectStep]
  split
  · left; rfl
  · right; rfl

theorem bisection_returns_last_midpoint_witness :
    bisection (fun x : ℚ => x * x - 3) 1 2 1 = some (3 / 2) := by
  have h :=
    (bisection_returns_last_midpoint (fun x : ℚ => x * x - 3) 1 2 1 le_rfl).1
  have hx : some (mid (bisectIter (fun x : ℚ => x * x - 3) (1 - 1) (1, 2))) =
      some ((3 : ℚ) / 2) := by
    rw [show bisectIter (fun x : ℚ => x * x - 3) (1 - 1) ((1 : ℚ), 2) =
        ((1 : ℚ), 2) from rfl,
      show mid ((1 : ℚ), 2) = 3 / 2 from by rw [mid]; norm_num]
  exact h.trans hx

/-- C7 counterexample: for the constant function `F = 1` (no sign change) on
endpoints `0, 1` with `n = 2`, the call returns `3/4` for `(a, b) = (0, 1)`
but `1/4` for `(a, b) = (1, 0)`: the two endpoints are not treated
symmetrically in general. -/
theorem bisection_swap_counterexample :
    bisection (fun _ : ℚ => 1) 0 1 2 = some (3 / 4) ∧
      bisection (fun _ : ℚ => 1) 1 0 2 = some (1 / 4) ∧
      bisection (fun _ : ℚ => 1) 0 1 2 ≠ bisection (fun _ : ℚ => 1) 1 0 2 := by
  have sA : bisectStep (fun _ : ℚ => 1) (0, 1) = (1 / 2, 1) := by
    rw [bisectStep_of_not_lt (by norm_num),
      show mid ((0 : ℚ), 1) = 1 / 2 from by rw [mid]; norm_num]
  have sB : bisectStep (fun _ : ℚ => 1) (1, 0) = (1 / 2, 0) := by
    rw [bisectStep_of_not_lt (by norm_num),
      show mid ((1 : ℚ), 0) = 1 / 2 from by rw [mid]; norm_num]
  have hA : bisection (fun _ : ℚ => 1) 0 1 2 = some (3 / 4) := by
    rw [bisection_succ_eval (fun _ : ℚ => 1) 0 1 1 2 (by omega),
      bisectIter_one, sA,
      show mid ((1 / 2 : ℚ), 1) = 3 / 4 from by rw [mid]; norm_num]
  have hB : bisection (fun _ : ℚ => 1) 1 0 2 = some (1 / 4) := by
    rw [bisection_succ_eval (fun _ : ℚ => 1) 1 0 1 2 (by omega),
      bisectIter_one, sB,
      show mid ((1 / 2 : ℚ), 0) = 1 / 4 from by rw [mid]; norm_num]
  refine ⟨hA, hB, ?_⟩
  rw [hA, hB]
  norm_num

/-- C7 corrected: the two endpoints are treated symmetrically provided the
bracketing precondition `F a * F b < 0` holds and no examined midpoint is an
exact zero of `F` (the examined midpoints agree between the two runs): then
the estimates for `(a, b)` and `(b, a)` coincide for every `n ≥ 1`. -/
theorem bisection_swap_symmetric (F : α → α) (a b : α) (hs : F a * F b < 0)
    (n : ℕ) (hn : 1 ≤ n)
    (hz : ∀ j < n, F (mid (bisectIter F j (a, b))) ≠ 0) :
    bisection F a b (n : ℤ) = bisection F b a (n : ℤ) := by
  obtain ⟨m, rfl⟩ : ∃ m, n = m + 1 := ⟨n - 1, by omega⟩
  rw [bisection_coe_of_pos F a b hn, bisection_coe_of_pos F b a hn,
    Nat.add_sub_cancel, bisectIter_swap hs m (fun j hj => hz j (by omega))]
  have hmm : mid (((bisectIter F m (a, b)).2, (bisectIter F m (a, b)).1) :
      α × α) = mid (bisectIter F m (a, b)) := by
    rw [mid, mid]
    ring_nf
  rw [hmm]

theorem bisection_swap_symmetric_witness :
    bisection (fun x : ℚ => x) (-1) 2 2 = bisection (fun x : ℚ => x) 2 (-1) 2 := by
  apply bisection_swap_symmetric (fun x : ℚ => x) (-1) 2 (by norm_num) 2
    (by norm_num)
  intro j hj
  interval_cases j
  · show (fun x : ℚ => x) (mid ((-1 : ℚ), 2)) ≠ 0
    norm_num [mid]
  · have s1 : bisectStep (fun x : ℚ => x) (-1, 2) = (-1, 1 / 2) := by
      have hm : mid ((-1 : ℚ), 2) = 1 / 2 := by rw [mid]; norm_num
      rw [bisectStep_of_lt (by rw [hm]; norm_num), hm]
    show (fun x : ℚ => x) (mid (bisectIter (fun x : ℚ => x) 1 (-1, 2))) ≠ 0
    rw [bisectIter_one, s1]
    norm_num [mid]

/-- C1 counterexample: `F x = x` is continuous on `[-1, 3]` with the single
root `0` and `F (-1) * F 3 < 0`, yet with `n = 4` the call returns `3/4`,
and `|3/4 - 0| = 3/4 > (3 - (-1)) / 2⁴ = 1/4`.  (At the second iteration the
midpoint is the exact root `0`; the else branch then moves `a` past it.) -/
theorem bisection_convergence_counterexample :
    ContinuousOn (fun x : ℝ => x) (Set.Icc (-1) 3) ∧
      (0 : ℝ) ∈ Set.Icc (-1 : ℝ) 3 ∧ (fun x : ℝ => x) 0 = 0 ∧
      (∀ x ∈ Set.Icc (-1 : ℝ) 3, (fun x : ℝ => x) x = 0 → x = 0) ∧
      (fun x : ℝ => x) (-1) * (fun x : ℝ => x) 3 < 0 ∧
      bisection (fun x : ℝ => x) (-1) 3 4 = some (3 / 4) ∧
      ¬ |(3 / 4 : ℝ) - 0| ≤ (3 - (-1 : ℝ)) / 2 ^ (4 : ℕ) := by
  have hm0 : mid ((-1 : ℝ), 3) = 1 := by rw [mid]; norm_num
  have s1 : bisectStep (fun x : ℝ => x) (-1, 3) = (-1, 1) := by
    rw [bisectStep_of_lt (by rw [hm0]; norm_num), hm0]
  have hm1 : mid ((-1 : ℝ), 1) = 0 := by rw [mid]; norm_num
  have s2 : bisectStep (fun x : ℝ => x) (-1, 1) = (0, 1) := by
    rw [bisectStep_of_not_lt (by rw [hm1]; norm_num), hm1]
  have hm2 : mid ((0 : ℝ), 1) = 1 / 2 := by rw [mid]; norm_num
  have s3 : bisectStep (fun x : ℝ => x) (0, 1) = (1 / 2, 1) := by
    rw [bisectStep_of_not_lt (by rw [hm2]; norm_num), hm2]
  refine ⟨continuous_id.continuousOn, by norm_num, rfl, fun x _ h => h,
    by norm_num, ?_, ?_⟩
  · rw [bisection_succ_eval (fun x : ℝ => x) (-1) 3 3 4 (by omega),
      bisectIter_three, s1, s2, s3,
      show mid ((1 / 2 : ℝ), 1) = 3 / 4 from by rw [mid]; norm_num]
  · rw [sub_zero, abs_of_nonneg (by norm_num : (0 : ℝ) ≤ 3 / 4)]
    norm_num

/-- C1 corrected: under the claim's hypotheses — `F` continuous on `[a, b]`
with single root `r`, strictly opposite signs at the endpoints, `n ≥ 1` — and
additionally provided no examined midpoint is an exact zero of `F`, the
returned estimate satisfies `|estimate − r| ≤ (b − a) / 2 ^ n`.  Without the
additional hypothesis the bound can fail (see the counterexample): hitting
the root exactly at a midpoint makes the else branch step over it. -/
theorem bisection_convergence_bound (F : ℝ → ℝ) (a b : ℝ) (r : ℝ)
    (hab : a < b) (hc : ContinuousOn F (Set.Icc a b))
    (hr : r ∈ Set.Icc a b) (hr0 : F r = 0)
    (huniq : ∀ x ∈ Set.Icc a b, F x = 0 → x = r)
    (hs : F a * F b < 0) (n : ℕ) (hn : 1 ≤ n)
    (hz : ∀ j < n, F (mid (bisectIter F j (a, b))) ≠ 0) :
    ∀ e, bisection F a b (n : ℤ) = some e → |e - r| ≤ (b - a) / 2 ^ n := by
  obtain ⟨m, rfl⟩ : ∃ m, n = m + 1 := ⟨n - 1, by omega⟩
  intro e he
  rw [bisection_coe_of_pos F a b hn] at he
  have he' : e = mid (bisectIter F m (a, b)) := (Option.some.inj he).symm
  have hw : (bisectIter F m (a, b)).2 - (bisectIter F m (a, b)).1 =
      (b - a) / 2 ^ m := bisectIter_width F m (a, b)
  have hmem := bisectIter_mem F a b m
  rw [min_eq_left hab.le, max_eq_right hab.le] at hmem
  obtain ⟨hq1a, hq1b, hq2a, hq2b⟩ := hmem
  have hds : F (bisectIter F m (a, b)).1 * F (bisectIter F m (a, b)).2 < 0 :=
    bisectIter_sign hs m fun j hj => hz j (by omega)
  have hq12 : (bisectIter F m (a, b)).1 < (bisectIter F m (a, b)).2 := by
    have hpos : (0 : ℝ) < (b - a) / 2 ^ m := by
      have : (0 : ℝ) < b - a := by linarith
      positivity
    linarith
  have hsub : Set.Icc (bisectIter F m (a, b)).1 (bisectIter F m (a, b)).2 ⊆
      Set.Icc a b := Set.Icc_subset_Icc hq1a hq2b
  obtain ⟨z, hzmem, hz0⟩ :=
    exists_root_of_mul_neg hq12.le (hc.mono hsub) hds
  have hzr : z = r := huniq z (hsub hzmem) hz0
  have hr1 : (bisectIter F m (a, b)).1 ≤ r := hzr ▸ hzmem.1
  have hr2 : r ≤ (bisectIter F m (a, b)).2 := hzr ▸ hzmem.2
  have hmid : mid (bisectIter F m (a, b)) =
      ((bisectIter F m (a, b)).1 + (bisectIter F m (a, b)).2) / 2 := rfl
  have hpow : (b - a) / 2 ^ (m + 1) = (b - a) / 2 ^ m / 2 := by
    rw [pow_succ, div_div]
  rw [he', hmid, hpow, abs_le]
  constructor <;> linarith

theorem bisection_convergence_bound_witness :
    |(1 / 2 : ℝ) - 0| ≤ (2 - (-1 : ℝ)) / 2 ^ (1 : ℕ) := by
  apply bisection_convergence_bound (fun x : ℝ => x) (-1) 2 0 (by norm_num)
    continuous_id.continuousOn (by norm_num) rfl (fun x _ h => h)
    (by norm_num) 1 le_rfl
  · intro j hj
    have hj0 : j = 0 := by omega
    subst hj0
    show (fun x : ℝ => x) (mid ((-1 : ℝ), 2)) ≠ 0
    norm_num [mid]
  · rw [bisection_succ_eval (fun x : ℝ => x) (-1) 2 0 ((1 : ℕ) : ℤ) (by omega),
      show bisectIter (fun x : ℝ => x) 0 ((-1 : ℝ), 2) = ((-1 : ℝ), 2)
        from rfl,
      show mid ((-1 : ℝ), 2) = 1 / 2 from by rw [mid]; norm_num]

end RootFinding
